import Mathlib

/-!
Shallow embedding of the NEAT genome core (src/genome.go).

Modelling conventions:
- A Go `*NodeGene` held by a connection always points at an object stored in
  the owning genome's `NodeGenes` slice, and distinct slots of that slice hold
  distinct objects; we therefore represent a node pointer by the index of the
  pointed-to node in the genome's node list.  Go pointer equality between two
  such references is index equality.
- `float64` weights are modelled as rationals; the claims under study are
  structural and use only addition and scaling by 6.
- The implicit global `math/rand` source is modelled by an explicit tape of
  draws, threaded by position: `fl i` is the i-th value that `rand.Float64()`
  would return (in `[0,1)`), `nf i` the i-th `rand.NormFloat64()` value, and
  `intn i n` the i-th `rand.Intn(n)` value, reduced `% n` so that it lies in
  `[0,n)` exactly as `rand.Intn` guarantees for `n > 0`.  Every call consumes
  one tape position, in the order the Go code performs the calls.
- A Go runtime panic (out-of-range slice index, `rand.Intn(0)`) is modelled by
  returning `none`.
-/

namespace Neat

/-- `NodeGene` from src/genome.go: node ID, node type and activation function.
The activation pointer is represented by the registry name it was looked up
under (`ActivationSet["identity"]`, `ActivationSet["sigmoid"]`). -/
structure NodeGene where
  id : Int
  ntype : String
  activation : String
deriving DecidableEq, Inhabited

/-- `ConnGene` from src/genome.go: input node, output node, weight, disabled
flag.  `fromN`/`toN` are the indices (in the owning genome's node list) of the
nodes the Go `From`/`To` pointers reference. -/
structure ConnGene where
  fromN : Nat
  toN : Nat
  weight : ℚ
  disabled : Bool
deriving DecidableEq, Inhabited

/-- `Genome` from src/genome.go: genome ID, nodes and connections. -/
structure Genome where
  id : Int
  nodeGenes : List NodeGene
  connGenes : List ConnGene
deriving DecidableEq, Inhabited

/-- Explicit model of the `math/rand` draw sequence (see file header). -/
structure Tape where
  fl : Nat → ℚ
  nf : Nat → ℚ
  intn : Nat → Nat → Nat

/-- `rand.Float64()` always returns a value in `[0,1)`. -/
def Tape.WF (t : Tape) : Prop := ∀ i, 0 ≤ t.fl i ∧ t.fl i < 1

/-- The node list built by the two loops of `NewGenome`: `numInputs` input
nodes with ids `0..numInputs-1` and activation `identity`, then `numOutputs`
output nodes with ids `numInputs..numInputs+numOutputs-1` and `sigmoid`. -/
def factoryNodes (numInputs numOutputs : Nat) : List NodeGene :=
  (List.range numInputs).map (fun i => ⟨(i : Int), "input", "identity"⟩) ++
    (List.range numOutputs).map (fun k => ⟨((numInputs + k : Nat) : Int), "output", "sigmoid"⟩)

/-- The connection list built by the inner loop of `NewGenome`: for the k-th
output node (stored at index `numInputs + k`) and every input index `j`, an
enabled connection `nodeGenes[j] → outputNode` whose weight is
`rand.NormFloat64()*6.0`. -/
def factoryConns (numInputs numOutputs : Nat) (t : Tape) (pos : Nat) : List ConnGene :=
  ((List.range numOutputs).map (fun k =>
      (List.range numInputs).map (fun j =>
        (⟨j, numInputs + k, t.nf (pos + k * numInputs + j) * 6, false⟩ : ConnGene)))).flatten

/-- `NewGenome` exactly as written in src/genome.go (lines 63-87).  The
function body builds `nodeGenes` and `connGenes`, but the final return literal
discards both: the `NodeGenes` field is initialised from an empty function
literal that has no return statement (which does not even compile in Go;
modelled here as the empty list, the zero value it discards the built slice
for) and `ConnGenes` is initialised to `make([]*ConnGene, 0)`, a fresh empty
slice. -/
def NewGenome (id : Int) (numInputs numOutputs : Nat) (t : Tape) (pos : Nat) : Genome :=
  let nodeGenes := factoryNodes numInputs numOutputs
  let connGenes := factoryConns numInputs numOutputs t pos
  { id := id, nodeGenes := [], connGenes := [] }

/-- `NewGenome` as its own doc comment ("returns an instance of initial Genome
with fully connected input and output layers") and the spec describe it:
identical construction, but the built node and connection lists are actually
returned. -/
def NewGenomeIntended (id : Int) (numInputs numOutputs : Nat) (t : Tape) (pos : Nat) : Genome :=
  { id := id,
    nodeGenes := factoryNodes numInputs numOutputs,
    connGenes := factoryConns numInputs numOutputs t pos }

/-! ## Mutate (src/genome.go lines 101-137) -/

/-- The weight-perturbation loop of `Mutate` (lines 103-107): for each
connection in order, draw `rand.Float64()`; if it is below `ratePerturb`, draw
`rand.NormFloat64()` and add it to the connection's weight.  Returns the new
connection list together with the next unused tape position. -/
def perturbConns (ratePerturb : ℚ) (t : Tape) : List ConnGene → Nat → List ConnGene × Nat
  | [], pos => ([], pos)
  | c :: rest, pos =>
    if t.fl pos < ratePerturb then
      let r := perturbConns ratePerturb t rest (pos + 2)
      ({ c with weight := c.weight + t.nf (pos + 1) } :: r.1, r.2)
    else
      let r := perturbConns ratePerturb t rest (pos + 1)
      (c :: r.1, r.2)

/-- The body of the add-node branch (lines 112-118), given the index `sel` of
the selected connection: disable the selected connection, append a new hidden
node whose id is the current node count (so the new node lives at that index),
and append the two bridging connections `selected.From → newNode` (weight 1)
and `newNode → selected.To` (the selected connection's weight). -/
def addNodeStep (g : Genome) (sel : Nat) : Genome :=
  let selected := g.connGenes.getD sel default
  { g with
    nodeGenes := g.nodeGenes ++ [⟨(g.nodeGenes.length : Int), "hidden", "sigmoid"⟩],
    connGenes :=
      g.connGenes.set sel { selected with disabled := true } ++
        [⟨selected.fromN, g.nodeGenes.length, 1, false⟩,
         ⟨g.nodeGenes.length, selected.toN, selected.weight, false⟩] }

/-- The add-node branch of `Mutate` (line 111): one `rand.Float64()` draw is
always consumed; the branch fires when it is below `rateAddNode` and the
connection list is non-empty, in which case one `rand.Intn(len(conns))` draw
selects the connection.  Returns the genome and the next tape position. -/
def addNodePhase (g : Genome) (rateAddNode : ℚ) (t : Tape) (pos : Nat) : Genome × Nat :=
  if t.fl pos < rateAddNode ∧ g.connGenes.length ≠ 0 then
    (addNodeStep g (t.intn (pos + 1) g.connGenes.length % g.connGenes.length), pos + 2)
  else (g, pos + 1)

/-- The add-connection branch of `Mutate` (lines 124-136): one `rand.Float64()`
draw; if below `rateAddConn`, two `rand.Intn(len(nodes))` draws pick the two
endpoint nodes (`rand.Intn(0)` panics, modelled as `none`, when the node list
is empty); if some connection already has exactly this (from, to) pair of node
pointers the step returns with the genome unchanged; otherwise a
`rand.NormFloat64()` draw gives the new enabled connection's weight `* 6.0`. -/
def addConnPhase (g : Genome) (rateAddConn : ℚ) (t : Tape) (pos : Nat) : Option Genome :=
  if t.fl pos < rateAddConn then
    if g.nodeGenes.length = 0 then none
    else
      let n := g.nodeGenes.length
      let i := t.intn (pos + 1) n % n
      let j := t.intn (pos + 2) n % n
      if g.connGenes.any (fun c => decide (c.fromN = i ∧ c.toN = j)) then some g
      else some { g with connGenes := g.connGenes ++ [⟨i, j, t.nf (pos + 3) * 6, false⟩] }
  else some g

/-- `Mutate` from src/genome.go (lines 101-137): weight perturbation, then the
add-node branch, then the add-connection branch, threading the random tape in
draw order. -/
def Mutate (g : Genome) (ratePerturb rateAddNode rateAddConn : ℚ) (t : Tape) (pos : Nat) :
    Option Genome :=
  let pr := perturbConns ratePerturb t g.connGenes pos
  let an := addNodePhase { g with connGenes := pr.1 } rateAddNode t pr.2
  addConnPhase an.1 rateAddConn t an.2

/-! ## Crossover (src/genome.go lines 150-193) -/

/-- The view of a connection gene that Crossover reads off a parent: the ids
of the `From`/`To` nodes, the weight and the disabled flag. -/
structure AbsConn where
  fromId : Int
  toId : Int
  weight : ℚ
  disabled : Bool
deriving DecidableEq, Inhabited

/-- The innovation key `[2]int{conn.From.ID, conn.To.ID}`. -/
def key (a : AbsConn) : Int × Int := (a.fromId, a.toId)

/-- The id of the node a connection endpoint (an index into the genome's node
list) points at. -/
def nodeId (g : Genome) (i : Nat) : Int := (g.nodeGenes.getD i default).id

/-- The `AbsConn` view of one of `g`'s connection genes. -/
def connAbs (g : Genome) (c : ConnGene) : AbsConn :=
  ⟨nodeId g c.fromN, nodeId g c.toN, c.weight, c.disabled⟩

/-- All of `g`'s connections, viewed as (from.id, to.id, weight, disabled)
tuples in list order. -/
def tuples (g : Genome) : List AbsConn := g.connGenes.map (connAbs g)

/-- The ordered (from.id, to.id) pairs of `g`'s connections. -/
def pairKeys (g : Genome) : List (Int × Int) :=
  g.connGenes.map (fun c => (nodeId g c.fromN, nodeId g c.toN))

/-- `innovations[k] = v` on the association-list model of the Go map: replace
the value stored at `k` if the key is present, otherwise append the new entry.
(Go map iteration order is unspecified; the model keeps insertion order, and
the claim statements about the resulting connection list are order-free.) -/
def mapPut (m : List ((Int × Int) × AbsConn)) (k : Int × Int) (v : AbsConn) :
    List ((Int × Int) × AbsConn) :=
  if m.any (fun e => decide (e.1 = k)) then m.map (fun e => if e.1 = k then (k, v) else e)
  else m ++ [(k, v)]

/-- The first Crossover loop (lines 152-154): record every connection of `g0`
in `innovations`, keyed by (from.id, to.id). -/
def insertAll (m : List ((Int × Int) × AbsConn)) (l : List AbsConn) :
    List ((Int × Int) × AbsConn) :=
  l.foldl (fun m c => mapPut m (key c) c) m

/-- The second Crossover loop (lines 155-164): for each connection of `g1`, if
its key is already present, replace the stored gene with `g1`'s gene when the
tie-break coin (`rand.Float64() < 0.5`) says so — the coin is drawn only in
this case, hence the separate coin counter `cpos` — otherwise insert the gene
directly. -/
def alignConns (m : List ((Int × Int) × AbsConn)) (l : List AbsConn) (coins : Nat → Bool)
    (cpos : Nat) : List ((Int × Int) × AbsConn) × Nat :=
  match l with
  | [] => (m, cpos)
  | c :: rest =>
    if m.any (fun e => decide (e.1 = key c)) then
      if coins cpos then alignConns (mapPut m (key c) c) rest coins (cpos + 1)
      else alignConns m rest coins (cpos + 1)
    else alignConns (mapPut m (key c) c) rest coins cpos

/-- The complete `innovations` dictionary built from the two parents. -/
def buildInnovations (g0 g1 : Genome) (coins : Nat → Bool) :
    List ((Int × Int) × AbsConn) :=
  (alignConns (insertAll [] (tuples g0)) (tuples g1) coins 0).1

/-- The node list Crossover copies into the child (lines 166-175): the larger
parent's nodes (ties favour `g0`), each node copied field-for-field. -/
def crossNodes (g0 g1 : Genome) : List NodeGene :=
  if g0.nodeGenes.length < g1.nodeGenes.length then g1.nodeGenes else g0.nodeGenes

/-- `Crossover` from src/genome.go (lines 150-193).  Each aligned gene is
resolved by indexing the child's node list at the gene's `From.ID`/`To.ID`
(lines 181-182); a Go out-of-range panic there is modelled as `none`, so the
child exists only when every referenced id is a valid index. -/
def Crossover (id : Int) (g0 g1 : Genome) (coins : Nat → Bool) : Option Genome :=
  let innov := buildInnovations g0 g1 coins
  let nodeGenes := crossNodes g0 g1
  if innov.all (fun e =>
      decide (0 ≤ e.2.fromId ∧ e.2.fromId < (nodeGenes.length : Int) ∧
        0 ≤ e.2.toId ∧ e.2.toId < (nodeGenes.length : Int))) then
    some { id := id, nodeGenes := nodeGenes,
           connGenes := innov.map (fun e =>
             ⟨e.2.fromId.toNat, e.2.toId.toNat, e.2.weight, e.2.disabled⟩) }
  else none

/-! ## Well-formedness of a genome (spec section 3 invariants) -/

/-- The ID-as-index invariant: `nodes[i].id == i` for every index `i`. -/
def idAsIndex (g : Genome) : Prop :=
  ∀ i ∈ List.range g.nodeGenes.length, (g.nodeGenes.getD i default).id = (i : Int)

/-- Every connection endpoint references a node stored in the genome's node
list. -/
def connsValid (g : Genome) : Prop :=
  ∀ c ∈ g.connGenes, c.fromN < g.nodeGenes.length ∧ c.toN < g.nodeGenes.length

/-- A valid genome per the spec's data model. -/
def Genome.WF (g : Genome) : Prop := idAsIndex g ∧ connsValid g

instance (g : Genome) : Decidable (idAsIndex g) := by
  unfold idAsIndex
  infer_instance

instance (g : Genome) : Decidable (connsValid g) := by
  unfold connsValid
  infer_instance

instance (g : Genome) : Decidable (Genome.WF g) := by
  unfold Genome.WF
  infer_instance

/-- How many connections were enabled in `old` and are disabled at the same
position of `new` (extra appended connections of `new` are ignored). -/
def newlyDisabledCount (old new : List ConnGene) : Nat :=
  ((old.zip new).filter (fun p => !p.1.disabled && p.2.disabled)).length

/-! ## Concrete inputs used by witnesses and counterexamples -/

/-- An all-zero random tape: every `Float64` draw is `0`, every `NormFloat64`
draw is `0`, every `Intn` draw is `0`. -/
def tape0 : Tape := ⟨fun _ => 0, fun _ => 0, fun _ _ => 0⟩

/-- A tape whose `Intn` draw at position 4 returns 1, all other draws 0. -/
def tapeSel : Tape := ⟨fun _ => 0, fun _ => 0, fun p _ => if p = 4 then 1 else 0⟩

/-- The tie-break coin stream that always keeps the first (g0) gene. -/
def coinsF : Nat → Bool := fun _ => false

/-- A small valid genome: input node 0, output node 1, one enabled connection
0 → 1 of weight 3. -/
def gEx : Genome :=
  ⟨1, [⟨0, "input", "identity"⟩, ⟨1, "output", "sigmoid"⟩], [⟨0, 1, 3, false⟩]⟩

/-- Like `gEx` but the single connection 0 → 1 (weight 5) is disabled. -/
def gDis : Genome :=
  ⟨1, [⟨0, "input", "identity"⟩, ⟨1, "output", "sigmoid"⟩], [⟨0, 1, 5, true⟩]⟩

/-- What `Mutate gDis 0 1 0 tape0 0` produces: the add-node branch selects the
(already disabled) connection, appends hidden node 2 and the two bridging
connections. -/
def gDisAfter : Genome :=
  ⟨1, [⟨0, "input", "identity"⟩, ⟨1, "output", "sigmoid"⟩, ⟨2, "hidden", "sigmoid"⟩],
   [⟨0, 1, 5, true⟩, ⟨0, 2, 1, false⟩, ⟨2, 1, 5, false⟩]⟩

/-- What `Mutate gEx 0 1 0 tape0 0` produces: the add-node branch fires,
disables the connection 0 → 1 and appends hidden node 2 with its two bridging
connections. -/
def gExGrown : Genome :=
  ⟨1, [⟨0, "input", "identity"⟩, ⟨1, "output", "sigmoid"⟩, ⟨2, "hidden", "sigmoid"⟩],
   [⟨0, 1, 3, true⟩, ⟨0, 2, 1, false⟩, ⟨2, 1, 3, false⟩]⟩

/-- A genome with no nodes and no connections. -/
def gEmpty : Genome := ⟨0, [], []⟩

/-- Second parent for the crossover witnesses: same two nodes as `gEx`, one
enabled connection 1 → 0 of weight 4 (disjoint key from `gEx`'s 0 → 1). -/
def g1Ex : Genome :=
  ⟨2, [⟨0, "input", "identity"⟩, ⟨1, "output", "sigmoid"⟩], [⟨1, 0, 4, false⟩]⟩

/-- The child `Crossover 9 gEx g1Ex coinsF` produces. -/
def childEx : Genome :=
  ⟨9, [⟨0, "input", "identity"⟩, ⟨1, "output", "sigmoid"⟩],
   [⟨0, 1, 3, false⟩, ⟨1, 0, 4, false⟩]⟩

/-- A malformed parent whose single node has id 7, so its connection's key
(7, 7) is out of range for any child node list. -/
def gBad : Genome := ⟨0, [⟨7, "input", "identity"⟩], [⟨0, 0, 1, false⟩]⟩

/-! ## Theorems -/

theorem tape0_wf : Tape.WF tape0 := by
  intro i
  show (0 : ℚ) ≤ 0 ∧ (0 : ℚ) < 1
  norm_num

theorem tapeSel_wf : Tape.WF tapeSel := by
  intro i
  show (0 : ℚ) ≤ 0 ∧ (0 : ℚ) < 1
  norm_num

/-- C1: the claim says `NewGenome` returns a genome with the `nI+nO` created
nodes and the `nI*nO` created connections; the code contradicts its own doc
comment (and the spec): its return literal discards the built slices, so
`NewGenome(1, 2, 1)` has 0 nodes and 0 connections instead of the claimed 3
nodes (ids 0,1,2) and 2 enabled connections 0→2 and 1→2.  The intended
construction (the same loops, lists actually returned) does satisfy the
claim. -/
theorem C1_factory_discards_genes :
    (NewGenome 1 2 1 tape0 0).nodeGenes = [] ∧
    (NewGenome 1 2 1 tape0 0).connGenes = [] ∧
    (NewGenomeIntended 1 2 1 tape0 0).nodeGenes.map NodeGene.id = [0, 1, 2] ∧
    (NewGenomeIntended 1 2 1 tape0 0).nodeGenes.map NodeGene.ntype =
      ["input", "input", "output"] ∧
    (NewGenomeIntended 1 2 1 tape0 0).connGenes.map
        (fun c => (c.fromN, c.toN, c.disabled)) = [(0, 2, false), (1, 2, false)] := by
  refine ⟨rfl, rfl, ?_, ?_, ?_⟩ <;> decide

/-! ### Basic lemmas about the mutation phases -/

theorem Mutate_eq (g : Genome) (rp ran rac : ℚ) (t : Tape) (pos : Nat) :
    Mutate g rp ran rac t pos =
      addConnPhase
        (addNodePhase { g with connGenes := (perturbConns rp t g.connGenes pos).1 }
          ran t (perturbConns rp t g.connGenes pos).2).1
        rac t
        (addNodePhase { g with connGenes := (perturbConns rp t g.connGenes pos).1 }
          ran t (perturbConns rp t g.connGenes pos).2).2 := rfl

theorem perturbConns_zero (t : Tape) (hw : Tape.WF t) :
    ∀ (l : List ConnGene) (pos : Nat), perturbConns 0 t l pos = (l, pos + l.length) := by
  intro l
  induction l with
  | nil => intro pos; rfl
  | cons c rest ih =>
    intro pos
    have h0 : ¬ t.fl pos < 0 := not_lt.2 (hw pos).1
    simp only [perturbConns, if_neg h0, ih, List.length_cons, Prod.mk.injEq, true_and]
    omega

theorem perturbConns_fst_length (r : ℚ) (t : Tape) :
    ∀ (l : List ConnGene) (pos : Nat), ((perturbConns r t l pos).1).length = l.length := by
  intro l
  induction l with
  | nil => intro pos; rfl
  | cons c rest ih =>
    intro pos
    by_cases h : t.fl pos < r <;> simp [perturbConns, h, ih]

theorem perturbConns_one_getD (t : Tape) (hw : Tape.WF t) :
    ∀ (l : List ConnGene) (pos k : Nat), k < l.length →
      ((perturbConns 1 t l pos).1).getD k default =
        { l.getD k default with
            weight := (l.getD k default).weight + t.nf (pos + 2 * k + 1) } := by
  intro l
  induction l with
  | nil => intro pos k hk; simp at hk
  | cons c rest ih =>
    intro pos k hk
    have h1 : t.fl pos < 1 := (hw pos).2
    cases k with
    | zero => simp [perturbConns, if_pos h1]
    | succ k =>
      have hk2 : k < rest.length := by simpa using hk
      simp only [perturbConns, if_pos h1, List.getD_cons_succ]
      rw [ih (pos + 2) k hk2]
      have : pos + 2 + 2 * k + 1 = pos + 2 * (k + 1) + 1 := by omega
      rw [this]

theorem addNodePhase_zero (g : Genome) (t : Tape) (pos : Nat) (hw : Tape.WF t) :
    addNodePhase g 0 t pos = (g, pos + 1) := by
  unfold addNodePhase
  rw [if_neg]
  rintro ⟨h, -⟩
  exact absurd h (not_lt.2 (hw pos).1)

theorem addConnPhase_zero (g : Genome) (t : Tape) (pos : Nat) (hw : Tape.WF t) :
    addConnPhase g 0 t pos = some g := by
  unfold addConnPhase
  rw [if_neg (not_lt.2 (hw pos).1)]

/-- C8: the weight-perturbation step touches only weights.  With
`pPerturb = 0` a `Mutate` call with all rates zero returns the genome
unchanged; with `pPerturb = 1` every connection's weight becomes the old
weight plus the `NormFloat64` sample drawn for it (the draw at tape position
`pos + 2k + 1` for the k-th connection), and node and connection counts are
unchanged. -/
theorem C8_weight_perturbation (g : Genome) (t : Tape) (pos : Nat) (hw : Tape.WF t) :
    Mutate g 0 0 0 t pos = some g ∧
    ∃ g', Mutate g 1 0 0 t pos = some g' ∧
      g'.nodeGenes = g.nodeGenes ∧
      g'.connGenes.length = g.connGenes.length ∧
      ∀ k, k < g.connGenes.length →
        g'.connGenes.getD k default =
          { g.connGenes.getD k default with
              weight := (g.connGenes.getD k default).weight + t.nf (pos + 2 * k + 1) } := by
  constructor
  · rw [Mutate_eq, perturbConns_zero t hw]
    rw [show ({ g with connGenes := g.connGenes } : Genome) = g from rfl]
    rw [addNodePhase_zero g t (pos + g.connGenes.length) hw]
    exact addConnPhase_zero g t (pos + g.connGenes.length + 1) hw
  · refine ⟨{ g with connGenes := (perturbConns 1 t g.connGenes pos).1 }, ?_, rfl,
      perturbConns_fst_length 1 t g.connGenes pos, ?_⟩
    · rw [Mutate_eq]
      rw [addNodePhase_zero _ t _ hw]
      exact addConnPhase_zero _ t _ hw
    · intro k hk
      exact perturbConns_one_getD t hw g.connGenes pos k hk

/-- C8 witness: the theorem applied to the concrete genome `gEx` and the
all-zero tape. -/
theorem C8_witness : Mutate gEx 0 0 0 tape0 0 = some gEx :=
  (C8_weight_perturbation gEx tape0 0 tape0_wf).1

/-- C10: the add-connection branch has no guard on the node list, unlike the
add-node branch.  On a node-less (hence, by endpoint validity, connection-less)
genome, whenever the `rand.Float64()` draw of the add-connection branch (tape
position `pos + 1`, since no perturbation draws happen and the add-node branch
consumes one draw without firing) succeeds against `rateAddConn`, the code
calls `rand.Intn(0)`, which panics: `Mutate` is not total on node-less
genomes. -/
theorem C10_addconn_needs_nodes (g : Genome) (rp ran rac : ℚ) (t : Tape) (pos : Nat)
    (hn : g.nodeGenes = []) (hc : g.connGenes = []) (hfire : t.fl (pos + 1) < rac) :
    Mutate g rp ran rac t pos = none := by
  rw [Mutate_eq, hc]
  show addConnPhase (addNodePhase { g with connGenes := [] } ran t pos).1 rac t
    (addNodePhase { g with connGenes := [] } ran t pos).2 = none
  have han : addNodePhase { g with connGenes := [] } ran t pos =
      ({ g with connGenes := [] }, pos + 1) := by
    unfold addNodePhase
    rw [if_neg]
    rintro ⟨-, h⟩
    exact h rfl
  rw [han]
  unfold addConnPhase
  rw [if_pos hfire, if_pos]
  show List.length g.nodeGenes = 0
  rw [hn]
  rfl

/-- C10 witness: on the empty genome with `rateAddConn = 1` and the all-zero
tape the add-connection branch fires and `Mutate` panics (returns `none`). -/
theorem C10_witness : Mutate gEmpty 0 0 1 tape0 0 = none :=
  C10_addconn_needs_nodes gEmpty 0 0 1 tape0 0 rfl rfl (by norm_num [tape0])

/-! ### The ID-as-index invariant and the two operators -/

theorem idAsIndex_of_nodes_eq (g g' : Genome) (h : g'.nodeGenes = g.nodeGenes)
    (hg : idAsIndex g) : idAsIndex g' := by
  intro i hi
  rw [h] at hi ⊢
  exact hg i hi

theorem addNodeStep_nodes (g : Genome) (sel : Nat) :
    (addNodeStep g sel).nodeGenes =
      g.nodeGenes ++ [⟨(g.nodeGenes.length : Int), "hidden", "sigmoid"⟩] := rfl

theorem addNodeStep_idAsIndex (g : Genome) (sel : Nat) (h : idAsIndex g) :
    idAsIndex (addNodeStep g sel) := by
  intro i hi
  rw [addNodeStep_nodes] at hi ⊢
  rw [List.mem_range] at hi
  simp only [List.length_append, List.length_cons, List.length_nil] at hi
  rcases Nat.lt_succ_iff_lt_or_eq.1 hi with hlt | heq
  · rw [List.getD_append _ _ _ _ hlt]
    exact h i (List.mem_range.2 hlt)
  · subst heq
    rw [List.getD_append_right _ _ _ _ (le_refl _)]
    simp

theorem addNodePhase_fst_idAsIndex (g : Genome) (ran : ℚ) (t : Tape) (pos : Nat)
    (h : idAsIndex g) : idAsIndex (addNodePhase g ran t pos).1 := by
  unfold addNodePhase
  split
  · exact addNodeStep_idAsIndex _ _ h
  · exact h

theorem addConnPhase_nodes (g g' : Genome) (rac : ℚ) (t : Tape) (pos : Nat)
    (h : addConnPhase g rac t pos = some g') : g'.nodeGenes = g.nodeGenes := by
  simp only [addConnPhase] at h
  split at h
  · split at h
    · exact absurd h (by simp)
    · split at h
      · have := Option.some.inj h
        subst this
        rfl
      · have := Option.some.inj h
        subst this
        rfl
  · have := Option.some.inj h
    subst this
    rfl

theorem crossover_some_nodes (id : Int) (g0 g1 child : Genome) (coins : Nat → Bool)
    (h : Crossover id g0 g1 coins = some child) : child.nodeGenes = crossNodes g0 g1 := by
  simp only [Crossover] at h
  split at h
  · have := Option.some.inj h
    subst this
    rfl
  · exact absurd h (by simp)

/-- C2: the ID-as-index invariant (`nodes[i].id == i`) is preserved by every
`Mutate` call — the add-node step assigns the new node the id
`len(g.NodeGenes)` and appends it, and no other step touches the node list —
and by `Crossover`, whose child node list is copied verbatim from one of the
two parents. -/
theorem C2_id_as_index_preserved :
    (∀ (g : Genome) (rp ran rac : ℚ) (t : Tape) (pos : Nat) (g' : Genome),
        idAsIndex g → Mutate g rp ran rac t pos = some g' → idAsIndex g') ∧
    (∀ (id : Int) (g0 g1 child : Genome) (coins : Nat → Bool),
        idAsIndex g0 → idAsIndex g1 →
        Crossover id g0 g1 coins = some child → idAsIndex child) := by
  constructor
  · intro g rp ran rac t pos g' hg hm
    rw [Mutate_eq] at hm
    have h1 : idAsIndex { g with connGenes := (perturbConns rp t g.connGenes pos).1 } :=
      idAsIndex_of_nodes_eq g _ rfl hg
    have h2 := addNodePhase_fst_idAsIndex
      { g with connGenes := (perturbConns rp t g.connGenes pos).1 } ran t
      (perturbConns rp t g.connGenes pos).2 h1
    have h3 := addConnPhase_nodes
      (addNodePhase { g with connGenes := (perturbConns rp t g.connGenes pos).1 } ran t
        (perturbConns rp t g.connGenes pos).2).1 g' rac t
      (addNodePhase { g with connGenes := (perturbConns rp t g.connGenes pos).1 } ran t
        (perturbConns rp t g.connGenes pos).2).2 hm
    exact idAsIndex_of_nodes_eq _ g' h3 h2
  · intro id g0 g1 child coins h0 h1 hc
    have hn := crossover_some_nodes id g0 g1 child coins hc
    unfold crossNodes at hn
    by_cases hlen : g0.nodeGenes.length < g1.nodeGenes.length
    · rw [if_pos hlen] at hn
      exact idAsIndex_of_nodes_eq g1 child hn h1
    · rw [if_neg hlen] at hn
      exact idAsIndex_of_nodes_eq g0 child hn h0

/-- C2 witness: a `Mutate` call on `gEx` in which the add-node branch fires;
the grown genome still satisfies ID-as-index. -/
theorem C2_witness : idAsIndex gExGrown :=
  C2_id_as_index_preserved.1 gEx 0 1 0 tape0 0 gExGrown (by decide) (by decide)

/-- C9: if any gene in the alignment map references a node id that is not a
valid index into the child's copied node list, `Crossover` panics on the index
expression `nodeGenes[conn.From.ID]` (modelled as `none`): it fails fast and
never returns a malformed child. -/
theorem C9_crossover_fails_fast (id : Int) (g0 g1 : Genome) (coins : Nat → Bool)
    (h : ∃ e ∈ buildInnovations g0 g1 coins,
        ¬(0 ≤ e.2.fromId ∧ e.2.fromId < ((crossNodes g0 g1).length : Int) ∧
          0 ≤ e.2.toId ∧ e.2.toId < ((crossNodes g0 g1).length : Int))) :
    Crossover id g0 g1 coins = none := by
  simp only [Crossover]
  rw [if_neg]
  intro hall
  obtain ⟨e, he, hbad⟩ := h
  exact hbad (of_decide_eq_true (List.all_eq_true.1 hall e he))

/-- C9 witness: a parent whose node has id 7 but whose node list has length 1;
its connection gene's key (7, 7) is out of range and `Crossover` returns
`none`. -/
theorem C9_witness : Crossover 5 gBad gEmpty coinsF = none :=
  C9_crossover_fails_fast 5 gBad gEmpty coinsF (by decide)

/-! ### The add-node mutation (claim C3) -/

theorem newlyDisabledCount_self_append (l extra : List ConnGene) :
    newlyDisabledCount l (l ++ extra) = 0 := by
  induction l with
  | nil => rfl
  | cons c rest ih =>
    simp only [newlyDisabledCount, List.cons_append, List.zip_cons_cons,
      List.filter_cons] at ih ⊢
    cases hc : c.disabled <;> simp [hc, ih]

theorem newlyDisabledCount_set (old : List ConnGene) (sel : Nat) (extra : List ConnGene)
    (h : sel < old.length) :
    newlyDisabledCount old
        (old.set sel { old.getD sel default with disabled := true } ++ extra) =
      if (old.getD sel default).disabled then 0 else 1 := by
  induction old generalizing sel with
  | nil => simp at h
  | cons c rest ih =>
    cases sel with
    | zero =>
      simp only [List.getD_cons_zero, List.set, List.cons_append]
      simp only [newlyDisabledCount, List.zip_cons_cons, List.filter_cons]
      have hz := newlyDisabledCount_self_append rest extra
      simp only [newlyDisabledCount] at hz
      by_cases hc : c.disabled = true <;> simp [hc, hz]
    | succ sel =>
      have h2 : sel < rest.length := by simpa using h
      have ih2 := ih sel h2
      simp only [List.getD_cons_succ, List.set, List.cons_append]
      simp only [newlyDisabledCount, List.zip_cons_cons, List.filter_cons] at ih2 ⊢
      by_cases hc : c.disabled = true <;> simp [hc] <;> simpa using ih2

/-- C3 counterexample: the claim demands that the add-node mutation disables
exactly one previously-enabled connection, for every genome with at least one
connection.  On `gDis`, whose only connection is already disabled, the firing
add-node branch selects that connection and re-disables it, so the number of
previously-enabled connections that become disabled is 0, not 1 (the rest of
the mutation — new node, two new connections — happens as claimed). -/
theorem C3_counterexample :
    Mutate gDis 0 1 0 tape0 0 = some gDisAfter ∧
    newlyDisabledCount gDis.connGenes gDisAfter.connGenes = 0 ∧
    newlyDisabledCount gDis.connGenes gDisAfter.connGenes ≠ 1 := by
  refine ⟨by decide, by decide, by decide⟩

/-- C3 (amended): when the add-node mutation fires on a genome with at least
one connection, it selects the connection at the (uniform) `rand.Intn` draw,
marks it disabled, appends exactly one new hidden node with id equal to the
previous node count and sigmoid activation, and appends exactly two new
enabled connections (originalFrom → newNode with weight 1, newNode →
originalTo with the selected connection's weight); node count grows by 1 and
connection count by 2.  If the selected connection was enabled, exactly one
previously-enabled connection becomes disabled; if it was already disabled,
none does. -/
theorem C3_add_node_mutation (g : Genome) (t : Tape) (pos : Nat) (hw : Tape.WF t)
    (hne : g.connGenes.length ≠ 0) :
    ∃ sel g',
      sel = t.intn (pos + g.connGenes.length + 1) g.connGenes.length %
        g.connGenes.length ∧
      Mutate g 0 1 0 t pos = some g' ∧
      g'.nodeGenes = g.nodeGenes ++ [⟨(g.nodeGenes.length : Int), "hidden", "sigmoid"⟩] ∧
      g'.connGenes =
        g.connGenes.set sel { g.connGenes.getD sel default with disabled := true } ++
          [⟨(g.connGenes.getD sel default).fromN, g.nodeGenes.length, 1, false⟩,
           ⟨g.nodeGenes.length, (g.connGenes.getD sel default).toN,
             (g.connGenes.getD sel default).weight, false⟩] ∧
      g'.nodeGenes.length = g.nodeGenes.length + 1 ∧
      g'.connGenes.length = g.connGenes.length + 2 ∧
      newlyDisabledCount g.connGenes g'.connGenes =
        (if (g.connGenes.getD sel default).disabled then 0 else 1) := by
  have hz := perturbConns_zero t hw g.connGenes pos
  have hsel : t.intn (pos + g.connGenes.length + 1) g.connGenes.length %
      g.connGenes.length < g.connGenes.length :=
    Nat.mod_lt _ (Nat.pos_of_ne_zero hne)
  refine ⟨_, addNodeStep g (t.intn (pos + g.connGenes.length + 1) g.connGenes.length %
    g.connGenes.length), rfl, ?_, addNodeStep_nodes g _, rfl, ?_, ?_, ?_⟩
  · rw [Mutate_eq, hz]
    show addConnPhase (addNodePhase g 1 t (pos + g.connGenes.length)).1 0 t
      (addNodePhase g 1 t (pos + g.connGenes.length)).2 = _
    have han : addNodePhase g 1 t (pos + g.connGenes.length) =
        (addNodeStep g (t.intn (pos + g.connGenes.length + 1) g.connGenes.length %
          g.connGenes.length), pos + g.connGenes.length + 2) := by
      unfold addNodePhase
      rw [if_pos ⟨(hw (pos + g.connGenes.length)).2, hne⟩]
    rw [han]
    exact addConnPhase_zero _ t _ hw
  · rw [addNodeStep_nodes]
    simp
  · show (g.connGenes.set _ _ ++ _).length = _
    simp
  · exact newlyDisabledCount_set g.connGenes _ _ hsel

/-- C3 witness: on `gEx`, whose single connection is enabled, the amended
theorem yields the grown genome and exactly one newly disabled connection. -/
theorem C3_witness :
    Mutate gEx 0 1 0 tape0 0 = some gExGrown ∧
    newlyDisabledCount gEx.connGenes gExGrown.connGenes = 1 := by
  obtain ⟨sel, g', hsel, hm, -, -, -, -, hcount⟩ :=
    C3_add_node_mutation gEx tape0 0 tape0_wf (by decide)
  subst hsel
  have h2 : Mutate gEx 0 1 0 tape0 0 = some gExGrown := by decide
  rw [h2] at hm
  have hg : g' = gExGrown := (Option.some.inj hm).symm
  subst hg
  refine ⟨h2, ?_⟩
  rw [hcount]
  decide

/-! ### The add-connection mutation (claim C4) -/

theorem Mutate_addconn_only (g : Genome) (t : Tape) (pos : Nat) (hw : Tape.WF t) :
    Mutate g 0 0 1 t pos = addConnPhase g 1 t (pos + g.connGenes.length + 1) := by
  rw [Mutate_eq, perturbConns_zero t hw]
  show addConnPhase (addNodePhase g 0 t (pos + g.connGenes.length)).1 1 t
    (addNodePhase g 0 t (pos + g.connGenes.length)).2 = _
  rw [addNodePhase_zero g t _ hw]

theorem nodeId_of_wf (g : Genome) (hwf : Genome.WF g) (c : ConnGene)
    (hc : c ∈ g.connGenes) :
    nodeId g c.fromN = (c.fromN : Int) ∧ nodeId g c.toN = (c.toN : Int) := by
  obtain ⟨hidx, hval⟩ := hwf
  obtain ⟨hf, ht⟩ := hval c hc
  exact ⟨hidx c.fromN (List.mem_range.2 hf), hidx c.toN (List.mem_range.2 ht)⟩

/-- C4: on a valid genome with at most one connection per ordered
(from.id, to.id) pair, a `Mutate` call that can only fire the add-connection
step preserves validity and that uniqueness (so any sequence of such calls
keeps it, the hypotheses being re-established after each call); and whenever
the two selected nodes (the `Intn` draws at tape positions
`pos + len(conns) + 2` and `pos + len(conns) + 3`) already have a connection
with that exact ordered pair, the call returns the genome entirely
unchanged. -/
theorem C4_no_duplicate_connections (g : Genome) (t : Tape) (pos : Nat)
    (hw : Tape.WF t) (hwf : Genome.WF g) (hnd : (pairKeys g).Nodup) :
    (∀ g', Mutate g 0 0 1 t pos = some g' → Genome.WF g' ∧ (pairKeys g').Nodup) ∧
    (g.nodeGenes.length ≠ 0 →
      (∃ c ∈ g.connGenes,
          c.fromN = t.intn (pos + g.connGenes.length + 2) g.nodeGenes.length %
            g.nodeGenes.length ∧
          c.toN = t.intn (pos + g.connGenes.length + 3) g.nodeGenes.length %
            g.nodeGenes.length) →
      Mutate g 0 0 1 t pos = some g) := by
  have hfl : t.fl (pos + g.connGenes.length + 1) < 1 := (hw _).2
  constructor
  · intro g' hg'
    rw [Mutate_addconn_only g t pos hw] at hg'
    simp only [addConnPhase, if_pos hfl] at hg'
    by_cases hn : g.nodeGenes.length = 0
    · rw [if_pos hn] at hg'
      exact absurd hg' (by simp)
    · rw [if_neg hn] at hg'
      split at hg'
      · have := Option.some.inj hg'
        subst this
        exact ⟨hwf, hnd⟩
      · rename_i hany
        have := Option.some.inj hg'
        subst this
        have hi : t.intn (pos + g.connGenes.length + 1 + 1) g.nodeGenes.length %
            g.nodeGenes.length < g.nodeGenes.length := Nat.mod_lt _ (Nat.pos_of_ne_zero hn)
        have hj : t.intn (pos + g.connGenes.length + 1 + 2) g.nodeGenes.length %
            g.nodeGenes.length < g.nodeGenes.length := Nat.mod_lt _ (Nat.pos_of_ne_zero hn)
        constructor
        · refine ⟨idAsIndex_of_nodes_eq g _ rfl hwf.1, ?_⟩
          intro c hc
          rcases List.mem_append.1 hc with hold | hnew
          · exact hwf.2 c hold
          · rcases List.mem_singleton.1 hnew with rfl
            exact ⟨hi, hj⟩
        · have hkeys : pairKeys { g with
              connGenes := g.connGenes ++
                [⟨t.intn (pos + g.connGenes.length + 1 + 1) g.nodeGenes.length %
                    g.nodeGenes.length,
                  t.intn (pos + g.connGenes.length + 1 + 2) g.nodeGenes.length %
                    g.nodeGenes.length,
                  t.nf (pos + g.connGenes.length + 1 + 3) * 6, false⟩] } =
              pairKeys g ++
                [(((t.intn (pos + g.connGenes.length + 1 + 1) g.nodeGenes.length %
                    g.nodeGenes.length : Nat) : Int),
                  ((t.intn (pos + g.connGenes.length + 1 + 2) g.nodeGenes.length %
                    g.nodeGenes.length : Nat) : Int))] := by
            simp only [pairKeys, nodeId, List.map_append, List.map_cons, List.map_nil]
            rw [hwf.1 _ (List.mem_range.2 hi), hwf.1 _ (List.mem_range.2 hj)]
          rw [hkeys]
          rw [List.nodup_append]
          refine ⟨hnd, List.nodup_singleton _, ?_⟩
          intro p hp hq
          rcases List.mem_singleton.1 hq with rfl
          obtain ⟨c, hc, hcp⟩ := List.mem_map.1 hp
          obtain ⟨hcf, hct⟩ := nodeId_of_wf g hwf c hc
          rw [hcf, hct, Prod.mk.injEq] at hcp
          have hfrom : c.fromN = t.intn (pos + g.connGenes.length + 1 + 1)
              g.nodeGenes.length % g.nodeGenes.length := by exact_mod_cast hcp.1
          have hto : c.toN = t.intn (pos + g.connGenes.length + 1 + 2)
              g.nodeGenes.length % g.nodeGenes.length := by exact_mod_cast hcp.2
          exact hany (List.any_eq_true.2 ⟨c, hc, decide_eq_true ⟨hfrom, hto⟩⟩)
  · intro hn hex
    rw [Mutate_addconn_only g t pos hw]
    simp only [addConnPhase, if_pos hfl, if_neg hn]
    rw [if_pos]
    obtain ⟨c, hc, h1, h2⟩ := hex
    exact List.any_eq_true.2 ⟨c, hc, decide_eq_true ⟨h1, h2⟩⟩

/-- C4 witness: on `gEx` with a tape that selects nodes 0 and 1 — the already
connected pair — the add-connection step is a silent no-op. -/
theorem C4_witness : Mutate gEx 0 0 1 tapeSel 0 = some gEx :=
  (C4_no_duplicate_connections gEx tapeSel 0 tapeSel_wf (by decide) (by decide)).2
    (by decide) (by decide)

/-! ### The innovation map (claims C5, C6) -/

theorem mapPut_of_not_mem (m : List ((Int × Int) × AbsConn)) (k : Int × Int) (v : AbsConn)
    (h : k ∉ m.map Prod.fst) : mapPut m k v = m ++ [(k, v)] := by
  unfold mapPut
  rw [if_neg]
  intro hany
  obtain ⟨e, he, hek⟩ := List.any_eq_true.1 hany
  exact h (List.mem_map.2 ⟨e, he, of_decide_eq_true hek⟩)

theorem mapPut_of_mem_self (m : List ((Int × Int) × AbsConn)) (k : Int × Int) (v : AbsConn)
    (hmem : (k, v) ∈ m) (huniq : ∀ e ∈ m, e.1 = k → e = (k, v)) : mapPut m k v = m := by
  unfold mapPut
  rw [if_pos (List.any_eq_true.2 ⟨(k, v), hmem, decide_eq_true rfl⟩)]
  conv_rhs => rw [← List.map_id m]
  apply List.map_congr_left
  intro e he
  by_cases hek : e.1 = k
  · rw [if_pos hek]
    exact (huniq e he hek).symm
  · rw [if_neg hek]
    rfl

theorem mapPut_keys_subset (m : List ((Int × Int) × AbsConn)) (k : Int × Int) (v : AbsConn)
    (k' : Int × Int) (h : k' ∈ (mapPut m k v).map Prod.fst) :
    k' ∈ m.map Prod.fst ∨ k' = k := by
  unfold mapPut at h
  split at h
  · obtain ⟨e2, he2, hek⟩ := List.mem_map.1 h
    obtain ⟨e, he, hee⟩ := List.mem_map.1 he2
    by_cases h2 : e.1 = k
    · right
      rw [if_pos h2] at hee
      rw [← hek, ← hee]
    · left
      rw [if_neg h2] at hee
      exact List.mem_map.2 ⟨e, he, by rw [hee, hek]⟩
  · rw [List.map_append] at h
    rcases List.mem_append.1 h with h3 | h3
    · left
      exact h3
    · right
      simpa using h3

theorem mapPut_mem_of_ne (m : List ((Int × Int) × AbsConn)) (k : Int × Int) (v : AbsConn)
    (e : (Int × Int) × AbsConn) (he : e ∈ m) (hne : e.1 ≠ k) : e ∈ mapPut m k v := by
  unfold mapPut
  split
  · refine List.mem_map.2 ⟨e, he, ?_⟩
    rw [if_neg hne]
  · exact List.mem_append_left _ he

theorem eq_of_fst_eq_of_keysNodup (m : List ((Int × Int) × AbsConn))
    (hnd : (m.map Prod.fst).Nodup) :
    ∀ e ∈ m, ∀ e2 ∈ m, e.1 = e2.1 → e = e2 := by
  induction m with
  | nil =>
    intro e he
    exact absurd he (List.not_mem_nil e)
  | cons a rest ih =>
    intro e he e2 he2 hk
    rw [List.map_cons, List.nodup_cons] at hnd
    rcases List.mem_cons.1 he with rfl | he3 <;> rcases List.mem_cons.1 he2 with rfl | he4
    · rfl
    · exact absurd (by rw [hk]; exact List.mem_map.2 ⟨e2, he4, rfl⟩) hnd.1
    · exact absurd (by rw [← hk]; exact List.mem_map.2 ⟨e, he3, rfl⟩) hnd.1
    · exact ih hnd.2 e he3 e2 he4 hk

theorem alignConns_mem_of_not_key (l : List AbsConn) :
    ∀ (m : List ((Int × Int) × AbsConn)) (coins : Nat → Bool) (cpos : Nat)
      (e : (Int × Int) × AbsConn), e ∈ m → e.1 ∉ l.map key →
      e ∈ (alignConns m l coins cpos).1 := by
  induction l with
  | nil =>
    intro m coins cpos e he _
    exact he
  | cons c rest ih =>
    intro m coins cpos e he hk
    rw [List.map_cons] at hk
    have hk1 : e.1 ≠ key c := fun h => hk (h ▸ List.mem_cons_self _ _)
    have hk2 : e.1 ∉ rest.map key := fun h => hk (List.mem_cons_of_mem _ h)
    simp only [alignConns]
    split
    · split
      · exact ih _ coins _ e (mapPut_mem_of_ne m (key c) c e he hk1) hk2
      · exact ih _ coins _ e he hk2
    · exact ih _ coins _ e (mapPut_mem_of_ne m (key c) c e he hk1) hk2

theorem alignConns_mem_keepFirst (l : List AbsConn) :
    ∀ (m : List ((Int × Int) × AbsConn)) (coins : Nat → Bool) (cpos : Nat)
      (e : (Int × Int) × AbsConn), (∀ n, coins n = false) → e ∈ m →
      e ∈ (alignConns m l coins cpos).1 := by
  induction l with
  | nil =>
    intro m coins cpos e _ he
    exact he
  | cons c rest ih =>
    intro m coins cpos e hcf he
    simp only [alignConns]
    split
    · rw [hcf cpos]
      simp only [Bool.false_eq_true, if_false]
      exact ih m coins _ e hcf he
    · rename_i hnone
      have hne : e.1 ≠ key c := fun hh =>
        hnone (List.any_eq_true.2 ⟨e, he, decide_eq_true hh⟩)
      exact ih _ coins _ e hcf (mapPut_mem_of_ne m (key c) c e he hne)

theorem alignConns_insert_fresh (l : List AbsConn) :
    ∀ (m : List ((Int × Int) × AbsConn)) (coins : Nat → Bool) (cpos : Nat) (c : AbsConn),
      c ∈ l → (l.map key).Nodup → key c ∉ m.map Prod.fst →
      (key c, c) ∈ (alignConns m l coins cpos).1 := by
  induction l with
  | nil =>
    intro m coins cpos c hc
    exact absurd hc (List.not_mem_nil c)
  | cons c0 rest ih =>
    intro m coins cpos c hc hnd hnotm
    rw [List.map_cons, List.nodup_cons] at hnd
    rcases List.mem_cons.1 hc with rfl | hcr
    · simp only [alignConns]
      rw [if_neg]
      · rw [mapPut_of_not_mem m _ c hnotm]
        apply alignConns_mem_of_not_key rest
        · exact List.mem_append_right _ (List.mem_singleton.2 rfl)
        · exact hnd.1
      · intro hany
        obtain ⟨e, he, hek⟩ := List.any_eq_true.1 hany
        exact hnotm (List.mem_map.2 ⟨e, he, of_decide_eq_true hek⟩)
    · have hkne : key c ≠ key c0 := by
        intro hh
        exact hnd.1 (hh ▸ List.mem_map.2 ⟨c, hcr, rfl⟩)
      have hnot2 : ∀ m2, key c ∉ m2.map Prod.fst →
          key c ∉ (mapPut m2 (key c0) c0).map Prod.fst := by
        intro m2 hm2 hmem
        rcases mapPut_keys_subset m2 (key c0) c0 (key c) hmem with h3 | h3
        · exact hm2 h3
        · exact hkne h3
      simp only [alignConns]
      split
      · split
        · exact ih _ coins _ c hcr hnd.2 (hnot2 m hnotm)
        · exact ih _ coins _ c hcr hnd.2 hnotm
      · exact ih _ coins _ c hcr hnd.2 (hnot2 m hnotm)

theorem insertAll_of_nodup :
    ∀ (l : List AbsConn) (m : List ((Int × Int) × AbsConn)),
      (m.map Prod.fst ++ l.map key).Nodup →
      insertAll m l = m ++ l.map (fun c => (key c, c)) := by
  intro l
  induction l with
  | nil =>
    intro m _
    simp [insertAll]
  | cons c rest ih =>
    intro m hnd
    have hkm : key c ∉ m.map Prod.fst := by
      rw [List.map_cons, List.nodup_append] at hnd
      exact fun hmem => hnd.2.2 hmem (List.mem_cons_self _ _)
    show insertAll (mapPut m (key c) c) rest = _
    rw [mapPut_of_not_mem m (key c) c hkm]
    rw [ih (m ++ [(key c, c)]) ?hnd2]
    · simp
    case hnd2 =>
      rw [List.map_append, List.append_assoc]
      simpa using hnd

theorem alignConns_fixed (l2 : List AbsConn) :
    ∀ (m : List ((Int × Int) × AbsConn)) (coins : Nat → Bool) (cpos : Nat),
      (m.map Prod.fst).Nodup → (∀ c ∈ l2, (key c, c) ∈ m) →
      (alignConns m l2 coins cpos).1 = m := by
  induction l2 with
  | nil =>
    intro m coins cpos _ _
    rfl
  | cons c rest ih =>
    intro m coins cpos hnd hall
    have hmem : (key c, c) ∈ m := hall c (List.mem_cons_self _ _)
    have hput : mapPut m (key c) c = m := by
      apply mapPut_of_mem_self m (key c) c hmem
      intro e he hek
      exact eq_of_fst_eq_of_keysNodup m hnd e he (key c, c) hmem hek
    simp only [alignConns]
    rw [if_pos (List.any_eq_true.2 ⟨(key c, c), hmem, decide_eq_true rfl⟩)]
    split
    · rw [hput]
      exact ih m coins _ hnd (fun d hd => hall d (List.mem_cons_of_mem _ hd))
    · exact ih m coins _ hnd (fun d hd => hall d (List.mem_cons_of_mem _ hd))

theorem connAbs_of_wf (g : Genome) (hwf : Genome.WF g) (c : ConnGene)
    (hc : c ∈ g.connGenes) :
    connAbs g c = ⟨(c.fromN : Int), (c.toN : Int), c.weight, c.disabled⟩ := by
  obtain ⟨hf, ht⟩ := nodeId_of_wf g hwf c hc
  simp [connAbs, hf, ht]

theorem pairKeys_eq_map_key (g : Genome) : pairKeys g = (tuples g).map key := by
  simp only [pairKeys, tuples, List.map_map]
  rfl

theorem crossNodes_idAsIndex (g0 g1 : Genome) (h0 : idAsIndex g0) (h1 : idAsIndex g1)
    (i : Nat) (hi : i < (crossNodes g0 g1).length) :
    ((crossNodes g0 g1).getD i default).id = (i : Int) := by
  unfold crossNodes at hi ⊢
  by_cases hlen : g0.nodeGenes.length < g1.nodeGenes.length
  · rw [if_pos hlen] at hi ⊢
    exact h1 i (List.mem_range.2 hi)
  · rw [if_neg hlen] at hi ⊢
    exact h0 i (List.mem_range.2 hi)

/-- `tuples` only depends on the node list (through the id lookup) and the
connection list. -/
theorem tuples_congr (g g' : Genome) (hn : g'.nodeGenes = g.nodeGenes)
    (hcz : g'.connGenes = g.connGenes) : tuples g' = tuples g := by
  unfold tuples
  rw [hcz]
  apply List.map_congr_left
  intro c hc
  simp [connAbs, nodeId, hn]

theorem connAbs_eq_of_getD (g : Genome) (c : ConnGene) (vf vt : Int)
    (hf : (g.nodeGenes.getD c.fromN default).id = vf)
    (ht : (g.nodeGenes.getD c.toN default).id = vt) :
    connAbs g c = ⟨vf, vt, c.weight, c.disabled⟩ := by
  unfold connAbs nodeId
  rw [hf, ht]

theorem crossover_mem_tuples (id : Int) (g0 g1 child : Genome) (coins : Nat → Bool)
    (hc : Crossover id g0 g1 coins = some child)
    (h0 : idAsIndex g0) (h1 : idAsIndex g1)
    (k : Int × Int) (v : AbsConn) (hm : (k, v) ∈ buildInnovations g0 g1 coins) :
    v ∈ tuples child := by
  simp only [Crossover] at hc
  split at hc
  · rename_i hall
    have hchild := Option.some.inj hc
    subst hchild
    have hr : 0 ≤ v.fromId ∧ v.fromId < ((crossNodes g0 g1).length : Int) ∧
        0 ≤ v.toId ∧ v.toId < ((crossNodes g0 g1).length : Int) :=
      of_decide_eq_true (List.all_eq_true.1 hall (k, v) hm)
    obtain ⟨h0f, h1f, h0t, h1t⟩ := hr
    have hfn : v.fromId.toNat < (crossNodes g0 g1).length := by omega
    have htn : v.toId.toNat < (crossNodes g0 g1).length := by omega
    refine List.mem_map.2 ⟨⟨v.fromId.toNat, v.toId.toNat, v.weight, v.disabled⟩,
      List.mem_map.2 ⟨(k, v), hm, rfl⟩, ?_⟩
    refine (connAbs_eq_of_getD _ _ v.fromId v.toId ?_ ?_).trans ?_
    · show ((crossNodes g0 g1).getD v.fromId.toNat default).id = v.fromId
      rw [crossNodes_idAsIndex g0 g1 h0 h1 _ hfn]
      omega
    · show ((crossNodes g0 g1).getD v.toId.toNat default).id = v.toId
      rw [crossNodes_idAsIndex g0 g1 h0 h1 _ htn]
      omega
    · rfl
  · exact absurd hc (by simp)

/-- C5: crossover of a valid genome with itself returns a child with the same
node list and exactly the same set of (from.id, to.id, weight, disabled)
tuples, under every tie-break coin stream: every tie-break replaces a gene
with itself, so the alignment map is exactly `g`'s gene list. -/
theorem C5_crossover_self (id : Int) (g : Genome) (coins : Nat → Bool)
    (hwf : Genome.WF g) (hnd : (pairKeys g).Nodup) :
    ∃ child, Crossover id g g coins = some child ∧
      child.nodeGenes = g.nodeGenes ∧
      ∀ a, a ∈ tuples child ↔ a ∈ tuples g := by
  have hkeys : ((tuples g).map key).Nodup := by
    rw [← pairKeys_eq_map_key]
    exact hnd
  have hm0 : insertAll [] (tuples g) = (tuples g).map (fun c => (key c, c)) := by
    have := insertAll_of_nodup (tuples g) [] (by simpa using hkeys)
    simpa using this
  have hinnov : buildInnovations g g coins = (tuples g).map (fun c => (key c, c)) := by
    unfold buildInnovations
    rw [hm0]
    apply alignConns_fixed
    · rw [List.map_map]
      exact hkeys
    · intro c hc
      exact List.mem_map.2 ⟨c, hc, rfl⟩
  have hcn : crossNodes g g = g.nodeGenes := by
    unfold crossNodes
    rw [if_neg (lt_irrefl _)]
  have habs : ∀ a ∈ tuples g, 0 ≤ a.fromId ∧ a.fromId < (g.nodeGenes.length : Int) ∧
      0 ≤ a.toId ∧ a.toId < (g.nodeGenes.length : Int) := by
    intro a ha
    obtain ⟨c, hc, hca⟩ := List.mem_map.1 ha
    obtain ⟨hcf, hct⟩ := hwf.2 c hc
    subst hca
    rw [connAbs_of_wf g hwf c hc]
    refine ⟨?_, ?_, ?_, ?_⟩
    · show (0 : Int) ≤ (c.fromN : Int)
      exact Int.natCast_nonneg _
    · show (c.fromN : Int) < (g.nodeGenes.length : Int)
      exact_mod_cast hcf
    · show (0 : Int) ≤ (c.toN : Int)
      exact Int.natCast_nonneg _
    · show (c.toN : Int) < (g.nodeGenes.length : Int)
      exact_mod_cast hct
  have hall : (buildInnovations g g coins).all (fun e =>
      decide (0 ≤ e.2.fromId ∧ e.2.fromId < ((crossNodes g g).length : Int) ∧
        0 ≤ e.2.toId ∧ e.2.toId < ((crossNodes g g).length : Int))) = true := by
    apply List.all_eq_true.2
    intro e he
    rw [hinnov] at he
    obtain ⟨a, ha, hae⟩ := List.mem_map.1 he
    apply decide_eq_true
    rw [← hae, hcn]
    exact habs a ha
  have hconns : (buildInnovations g g coins).map (fun e =>
      (⟨e.2.fromId.toNat, e.2.toId.toNat, e.2.weight, e.2.disabled⟩ : ConnGene)) =
      g.connGenes := by
    rw [hinnov]
    unfold tuples
    rw [List.map_map, List.map_map]
    conv_rhs => rw [← List.map_id g.connGenes]
    apply List.map_congr_left
    intro c hc
    show (⟨(connAbs g c).fromId.toNat, (connAbs g c).toId.toNat,
      (connAbs g c).weight, (connAbs g c).disabled⟩ : ConnGene) = c
    rw [connAbs_of_wf g hwf c hc]
    simp
  refine ⟨⟨id, crossNodes g g, (buildInnovations g g coins).map (fun e =>
      ⟨e.2.fromId.toNat, e.2.toId.toNat, e.2.weight, e.2.disabled⟩)⟩, ?_, hcn, ?_⟩
  · simp only [Crossover]
    rw [if_pos hall]
  · intro a
    rw [tuples_congr g ⟨id, crossNodes g g, (buildInnovations g g coins).map (fun e =>
      ⟨e.2.fromId.toNat, e.2.toId.toNat, e.2.weight, e.2.disabled⟩)⟩ hcn hconns]

/-- C5 witness: self-crossover of `gEx` under the keep-first coin stream. -/
theorem C5_witness :
    ∃ child, Crossover 7 gEx gEx coinsF = some child ∧
      child.nodeGenes = gEx.nodeGenes ∧
      ∀ a, a ∈ tuples child ↔ a ∈ tuples gEx :=
  C5_crossover_self 7 gEx coinsF (by decide) (by decide)

/-- C6: the alignment map of `Crossover` keeps every disjoint/excess gene of
either parent (for any coin stream), and under the keep-first coin stream
every gene of `g0` — in particular, for every key present in both parents, a
gene carrying `g0`'s weight — reaches the child. -/
theorem C6_alignment_map (id : Int) (g0 g1 child : Genome) (coins : Nat → Bool)
    (h0 : Genome.WF g0) (h1 : Genome.WF g1)
    (hnd0 : (pairKeys g0).Nodup) (hnd1 : (pairKeys g1).Nodup)
    (hc : Crossover id g0 g1 coins = some child) :
    (∀ a ∈ tuples g0, key a ∉ (tuples g1).map key → a ∈ tuples child) ∧
    (∀ a ∈ tuples g1, key a ∉ (tuples g0).map key → a ∈ tuples child) ∧
    ((∀ n, coins n = false) →
      ∀ a0 ∈ tuples g0, a0 ∈ tuples child ∧
        ∀ a1 ∈ tuples g1, key a1 = key a0 →
          ∃ b ∈ tuples child, key b = key a0 ∧ b.weight = a0.weight) := by
  have hkeys0 : ((tuples g0).map key).Nodup := by
    rw [← pairKeys_eq_map_key]
    exact hnd0
  have hkeys1 : ((tuples g1).map key).Nodup := by
    rw [← pairKeys_eq_map_key]
    exact hnd1
  have hm0 : insertAll [] (tuples g0) = (tuples g0).map (fun c => (key c, c)) := by
    have := insertAll_of_nodup (tuples g0) [] (by simpa using hkeys0)
    simpa using this
  have hm0keys : ((insertAll [] (tuples g0)).map Prod.fst) = (tuples g0).map key := by
    rw [hm0, List.map_map]
    rfl
  refine ⟨?_, ?_, ?_⟩
  · intro a ha hnot1
    apply crossover_mem_tuples id g0 g1 child coins hc h0.1 h1.1 (key a) a
    unfold buildInnovations
    apply alignConns_mem_of_not_key (tuples g1) _ coins 0 (key a, a) _ hnot1
    rw [hm0]
    exact List.mem_map.2 ⟨a, ha, rfl⟩
  · intro a ha hnot0
    apply crossover_mem_tuples id g0 g1 child coins hc h0.1 h1.1 (key a) a
    unfold buildInnovations
    apply alignConns_insert_fresh (tuples g1) _ coins 0 a ha hkeys1
    rw [hm0keys]
    exact hnot0
  · intro hcf a0 ha0
    have hmem : a0 ∈ tuples child := by
      apply crossover_mem_tuples id g0 g1 child coins hc h0.1 h1.1 (key a0) a0
      unfold buildInnovations
      apply alignConns_mem_keepFirst (tuples g1) _ coins 0 (key a0, a0) hcf
      rw [hm0]
      exact List.mem_map.2 ⟨a0, ha0, rfl⟩
    exact ⟨hmem, fun a1 _ _ => ⟨a0, hmem, rfl, rfl⟩⟩

/-- C6 witness: crossover of `gEx` and `g1Ex` (disjoint single genes) under
the keep-first coins; both disjoint genes appear in the child. -/
theorem C6_witness :
    (⟨0, 1, 3, false⟩ : AbsConn) ∈ tuples childEx ∧
    (⟨1, 0, 4, false⟩ : AbsConn) ∈ tuples childEx := by
  have h := C6_alignment_map 9 gEx g1Ex childEx coinsF (by decide) (by decide)
    (by decide) (by decide) (by decide)
  exact ⟨h.1 ⟨0, 1, 3, false⟩ (by decide) (by decide),
    h.2.1 ⟨1, 0, 4, false⟩ (by decide) (by decide)⟩

end Neat
